import Mathlib

/-!
Shallow embedding of src/main.rs (learning_openssh).

The program waits for TCP reachability of host:port (wait_for_ssh_connectable,
main.rs:49-70), opens an SSH session (main.rs:32-40), runs the remote command
"ps auwx" and parses its tabular output (command_list, main.rs:72-105), and
uploads the bytes of "hey" to the remote path test.txt over an SFTP subsystem
channel (put_data_file, main.rs:107-131).

Strings are modelled as List Char.  Network and process I/O is modelled by
explicit inputs (the list of output lines, the sequence of probe-attempt
results) and by event traces; each definition documents the source lines it
embeds.
-/

/-- Models Rust char::is_whitespace (and the regex class for whitespace) on
the ASCII range; this is the character class used both by split_whitespace
(main.rs:92) and by the row regex (main.rs:95). -/
def isWs (c : Char) : Bool :=
  c == ' ' || c == '\t' || c == '\n' || c == '\r' || c == '\x0b' || c == '\x0c'

/-- Accumulator-style whitespace tokenizer: cur holds the characters of the
current (unfinished) token in reverse order. -/
def wsTokensAux : List Char → List Char → List (List Char)
  | [], [] => []
  | [], cur => [cur.reverse]
  | c :: cs, cur =>
    if isWs c then
      match cur with
      | [] => wsTokensAux cs []
      | _ :: _ => cur.reverse :: wsTokensAux cs []
    else wsTokensAux cs (c :: cur)

/-- Models first_line.split_whitespace().collect::<Vec<_>>() (main.rs:92):
the maximal whitespace-free runs of the line, in order. -/
def wsTokens (l : List Char) : List (List Char) := wsTokensAux l []

/-- Result of the header-validation fragment of command_list (main.rs:86-93).
panicked models an assert_eq! / .expect() process abort; noOutput models the
recoverable error return at main.rs:88-90. -/
inductive HeaderResult
  | ok (headers : List (List Char))
  | panicked
  | noOutput
deriving DecidableEq

/-- Header validation of command_list (main.rs:86-93): given the first output
line (none when the stream had no line), either return the token list, abort
(assert_eq!(headers.len(), 11); assert_eq!(headers.last().expect("last"),
&"COMMAND")), or fail recoverably with the "output no line" error. -/
def parse_header : Option (List Char) → HeaderResult
  | none => HeaderResult.noOutput
  | some line =>
    let headers := wsTokens line
    if headers.length = 11 then
      match headers.getLast? with
      | some t => if t = "COMMAND".data then HeaderResult.ok headers else HeaderResult.panicked
      | none => HeaderResult.panicked
    else HeaderResult.panicked

/-- One maximal-munch step of the row regex (main.rs:95): one group of
one-or-more non-whitespace characters followed by one-or-more whitespace
characters.  Returns the rest of the line after the group, or none when the
group cannot match at the front of the line.  Both runs are maximal: the
non-space run cannot extend into whitespace, and if a whitespace run stopped
early the next required character class would fail, so the automaton commits
to the maximal runs. -/
def munchPair (l : List Char) : Option (List Char) :=
  let f := l.takeWhile fun c => !isWs c
  let l1 := l.dropWhile fun c => !isWs c
  let s := l1.takeWhile fun c => isWs c
  let l2 := l1.dropWhile fun c => isWs c
  if f.isEmpty || s.isEmpty then none else some l2

/-- n repetitions of the field-plus-whitespace group, from the start of the
line (the regex is anchored with a caret at main.rs:95). -/
def munchPairs : Nat → List Char → Option (List Char)
  | 0, l => some l
  | n + 1, l => (munchPair l).bind (munchPairs n)

/-- Models Regex::captures with the hardcoded row regex of main.rs:95 (ten
non-space runs each followed by whitespace, then a capture of the rest up to
the end of the line): returns capture group 1, or none when the regex does not
match.  The dot of the capture does not match a newline character and the
dollar anchor only matches at the end, so a remainder containing a newline
cannot be matched by any backtracking assignment (giving whitespace back from
the tenth separator only prepends characters to the failing remainder). -/
def parse_row (l : List Char) : Option (List Char) :=
  (munchPairs 10 l).bind fun rest => if rest.contains '\n' then none else some rest

/-- Outcome of the row loop of command_list (main.rs:96-100): panicked models
the .expect("regex should match") abort, ok carries the captured command texts
printed at main.rs:99, in order. -/
inductive RowsOutcome
  | ok (printed : List (List Char))
  | panicked
deriving DecidableEq

/-- The row loop of command_list (main.rs:96-100): every data row must match
the row regex; a match prints capture group 1 and the loop continues, a
non-match aborts the process. -/
def processRows : List (List Char) → RowsOutcome
  | [] => RowsOutcome.ok []
  | r :: rs =>
    match parse_row r with
    | none => RowsOutcome.panicked
    | some cap =>
      match processRows rs with
      | RowsOutcome.ok printed => RowsOutcome.ok (cap :: printed)
      | RowsOutcome.panicked => RowsOutcome.panicked

/-- Overall outcome of command_list (main.rs:72-105) on a given list of
stdout lines. -/
inductive CmdOutcome
  | ok (printed : List (List Char))
  | panicked
  | errNoOutput
deriving DecidableEq

/-- command_list (main.rs:72-105), with the remote process's stdout given as
the list of its output lines: validate the header from the first line
(main.rs:86-93), then run the row loop over the remaining lines
(main.rs:96-100). -/
def command_list (lines : List (List Char)) : CmdOutcome :=
  match lines with
  | [] => CmdOutcome.errNoOutput
  | first :: rest =>
    match parse_header (some first) with
    | HeaderResult.noOutput => CmdOutcome.errNoOutput
    | HeaderResult.panicked => CmdOutcome.panicked
    | HeaderResult.ok _ =>
      match processRows rest with
      | RowsOutcome.ok printed => CmdOutcome.ok printed
      | RowsOutcome.panicked => CmdOutcome.panicked

/-- The wording of the spec for the row pattern: FieldsThen n l rest holds
when l consists of n whitespace-delimited non-space runs, each followed by
whitespace, and then the remainder rest. -/
inductive FieldsThen : Nat → List Char → List Char → Prop
  | zero (l : List Char) : FieldsThen 0 l l
  | succ (n : Nat) (f s l rest : List Char) :
      f ≠ [] → (∀ c ∈ f, isWs c = false) → s ≠ [] → (∀ c ∈ s, isWs c = true) →
      FieldsThen n l rest → FieldsThen (n + 1) (f ++ (s ++ l)) rest

/-- Result of one probe attempt in wait_for_ssh_connectable (main.rs:54):
timeout(Duration::from_secs(5), TcpStream::connect(..)) either elapses
(timeoutErr, main.rs:55), completes with a connection error (connError,
main.rs:59), or connects (connOk, main.rs:63). -/
inductive AttemptResult
  | timeoutErr
  | connError
  | connOk
deriving DecidableEq

/-- The retry loop of wait_for_ssh_connectable (main.rs:49-70), with the
network modelled by the sequence a of per-attempt results (a k is the result
of the k-th attempt).  The loop is observed for fuel iterations starting at
attempt index i: some r means the function returned r within that many
iterations, none means it was still looping.  On timeoutErr and connError the
code prints a diagnostic and waits for the interval tick, then retries; on
connOk it returns Ok(()) -- the only return statement in the function. -/
def wait_for_ssh_connectable (a : Nat → AttemptResult) : Nat → Nat → Option (Except String Unit)
  | _, 0 => none
  | i, fuel + 1 =>
    match a i with
    | AttemptResult.connOk => some (Except.ok ())
    | AttemptResult.timeoutErr => wait_for_ssh_connectable a (i + 1) fuel
    | AttemptResult.connError => wait_for_ssh_connectable a (i + 1) fuel

/-- Start time (in seconds) of the n-th connection attempt (0-based) of
wait_for_ssh_connectable when every attempt fails, where dur n is the duration
of the n-th attempt (bounded by the 5-second timeout of main.rs:54).  The
10-second interval is created before the loop (main.rs:52), so its ticks are
scheduled at times 10*k from the start; tokio's first interval tick completes
immediately.  The n-th failed attempt ends at its start plus its duration and
then consumes tick n (scheduled at 10*n), so the next attempt starts at the
later of those two times. -/
def attemptStart (dur : Nat → Nat) : Nat → Nat
  | 0 => 0
  | n + 1 => max (attemptStart dur n + dur n) (10 * n)

/-- Observable events of one iteration of the probe loop: the connection
attempt (with its start time), the diagnostic line printed on failure
(main.rs:56 and main.rs:60), and the interval tick wait (main.rs:57 and
main.rs:61). -/
inductive PEvent
  | attemptAt (t : Nat)
  | diag
  | tickWait
deriving DecidableEq

/-- Event trace of the first n iterations of the probe loop when every
attempt fails: each iteration is one attempt, one diagnostic line, one tick
wait. -/
def probeTrace (dur : Nat → Nat) : Nat → List PEvent
  | 0 => []
  | n + 1 => probeTrace dur n ++ [PEvent.attemptAt (attemptStart dur n), PEvent.diag, PEvent.tickWait]

/-- Recognizer for attempt events in a probe trace. -/
def isAttempt : PEvent → Bool
  | PEvent.attemptAt _ => true
  | _ => false

/-- The four sequential steps of main (main.rs:25-47). -/
inductive Step
  | probe
  | connect
  | commandList
  | upload
deriving DecidableEq

/-- The full step order of main: probe (main.rs:30), session connect
(main.rs:32-40), command run/parse (main.rs:42), upload (main.rs:44). -/
def allSteps : List Step := [Step.probe, Step.connect, Step.commandList, Step.upload]

/-- Results of the four fallible steps of main, as an environment: main
itself only sequences them with the question-mark operator. -/
structure MainEnv where
  probeRes : Except String Unit
  connectRes : Except String Unit
  commandRes : Except String Unit
  uploadRes : Except String Unit

/-- Boolean error test on a step result. -/
def isErr : Except String Unit → Bool
  | Except.error _ => true
  | Except.ok _ => false

/-- main (main.rs:25-47): run the four steps in order, stopping at the first
error (the question-mark operator propagates it as the function result);
returns Ok(()) only after all four steps succeed.  The first component is the
list of steps that were attempted, in execution order. -/
def mainRun (env : MainEnv) : List Step × Except String Unit :=
  match env.probeRes with
  | Except.error e => ([Step.probe], Except.error e)
  | Except.ok _ =>
    match env.connectRes with
    | Except.error e => ([Step.probe, Step.connect], Except.error e)
    | Except.ok _ =>
      match env.commandRes with
      | Except.error e => ([Step.probe, Step.connect, Step.commandList], Except.error e)
      | Except.ok _ =>
        match env.uploadRes with
        | Except.error e => ([Step.probe, Step.connect, Step.commandList, Step.upload], Except.error e)
        | Except.ok _ => ([Step.probe, Step.connect, Step.commandList, Step.upload], Except.ok ())

/-- Remote-process-handle events on a successful execution path: spawning a
handle and waiting on it. -/
inductive HEvent
  | spawn (id : Nat)
  | wait (id : Nat)
deriving DecidableEq

/-- Handle events of the successful path of command_list: it spawns
ps_process (main.rs:76-81) and waits on it before returning (main.rs:103). -/
def command_list_handle_events : List HEvent := [HEvent.spawn 0, HEvent.wait 0]

/-- Handle events of the successful path of put_data_file: it spawns
sftp_process (main.rs:112-117) and then returns Ok(()) after the copy
(main.rs:128-130) without ever calling wait on (or closing) that handle. -/
def put_data_file_handle_events : List HEvent := [HEvent.spawn 0]

/-- A trace reaps every handle when each spawned id is also waited on
somewhere in the trace. -/
def reaped (tr : List HEvent) : Bool :=
  tr.all fun e =>
    match e with
    | HEvent.spawn id => tr.contains (HEvent.wait id)
    | HEvent.wait _ => true

/-- The single-quote character (codepoint 39). -/
def squote : Char := Char.ofNat 39

/-- The backslash character (codepoint 92). -/
def bslash : Char := Char.ofNat 92

/-- The character whitelist of shell_escape::unix (the crate function called
at main.rs:76): ASCII letters, digits, and - _ = / , . + are passed through
unescaped. -/
def whitelisted (c : Char) : Bool :=
  (decide (97 ≤ c.toNat) && decide (c.toNat ≤ 122)) ||
  (decide (65 ≤ c.toNat) && decide (c.toNat ≤ 90)) ||
  (decide (48 ≤ c.toNat) && decide (c.toNat ≤ 57)) ||
  c == '-' || c == '_' || c == '=' || c == '/' || c == ',' || c == '.' || c == '+'

/-- Per-character encoding inside the single-quoted form produced by
shell_escape::unix::escape: a single quote or an exclamation mark is written
as quote-backslash-char-quote, every other character is copied verbatim. -/
def encChar (c : Char) : List Char :=
  if c == squote || c == '!' then [squote, bslash, c, squote] else [c]

/-- shell_escape::unix::escape, as called at main.rs:76: a non-empty string
of whitelisted characters is returned unchanged; anything else is wrapped in
single quotes with encChar applied to each character. -/
def escapeUnix (s : List Char) : List Char :=
  if !s.isEmpty && s.all whitelisted then s
  else squote :: ((s.map encChar).flatten ++ [squote])

/-- The command string built at main.rs:76: each argument shell-escaped
individually, then joined with single spaces. -/
def buildCommand (args : List (List Char)) : List Char :=
  List.intercalate [' '] (args.map escapeUnix)

/-- Parser state for POSIX shell word splitting: outside quotes (with a flag
recording whether the current word has started), after a backslash, or inside
single quotes.  This models the fragment of shell word-splitting rules
exercised by escapeUnix output: whitespace separates words, a backslash
escapes the next character, single quotes quote everything up to the closing
quote.  (Double quotes and backslash-newline continuation are not modelled;
escapeUnix output contains a double quote or a backslash only inside single
quotes or immediately before a quote or exclamation mark.) -/
inductive SMode
  | norm (started : Bool)
  | esc
  | quoted

/-- One-pass shell word splitter over the input characters; cur holds the
current word in reverse, acc the completed words in reverse order.  Returns
none on an unterminated quote or a trailing backslash. -/
def ssRun : List Char → SMode → List Char → List (List Char) → Option (List (List Char))
  | [], SMode.norm false, _, acc => some acc.reverse
  | [], SMode.norm true, cur, acc => some (cur.reverse :: acc).reverse
  | [], SMode.esc, _, _ => none
  | [], SMode.quoted, _, _ => none
  | c :: cs, SMode.norm started, cur, acc =>
    if isWs c then
      if started then ssRun cs (SMode.norm false) [] (cur.reverse :: acc)
      else ssRun cs (SMode.norm false) [] acc
    else if c == squote then ssRun cs SMode.quoted cur acc
    else if c == bslash then ssRun cs SMode.esc cur acc
    else ssRun cs (SMode.norm true) (c :: cur) acc
  | c :: cs, SMode.esc, cur, acc => ssRun cs (SMode.norm true) (c :: cur) acc
  | c :: cs, SMode.quoted, cur, acc =>
    if c == squote then ssRun cs (SMode.norm true) cur acc
    else ssRun cs SMode.quoted (c :: cur) acc

/-- Shell word splitting of a command string (the spec side of the
round-trip property). -/
def shellSplit (l : List Char) : Option (List (List Char)) := ssRun l (SMode.norm false) [] []

/-- Modelled from the spec: the remote filesystem state behind the external
SFTP capability used by put_data_file (the openssh_sftp_client crate is an
external collaborator; the spec describes it as create/open the destination
file for writing, then stream all bytes from the data source until
exhausted). -/
structure RemoteFs where
  files : List Char → Option (List UInt8)

/-- Modelled from the spec: Sftp::create (main.rs:125) creates or truncates
the destination file, leaving it empty. -/
def sftp_create (fs : RemoteFs) (p : List Char) : RemoteFs :=
  RemoteFs.mk fun q => if q = p then some [] else fs.files q

/-- Modelled from the spec: writing one chunk appends its bytes, unchanged,
to the destination file. -/
def write_chunk (fs : RemoteFs) (p : List Char) (chunk : List UInt8) : RemoteFs :=
  RemoteFs.mk fun q => if q = p then some (((fs.files p).getD []) ++ chunk) else fs.files q

/-- Modelled from the spec: tokio::io::copy (main.rs:128) streams every chunk
of the data source to the remote file until the source is exhausted. -/
def copy_all (p : List Char) : RemoteFs → List (List UInt8) → RemoteFs
  | fs, [] => fs
  | fs, chunk :: rest => copy_all p (write_chunk fs p chunk) rest

/-- put_data_file (main.rs:107-131) acting on the modelled remote
filesystem: create the destination file, then copy all data chunks into it. -/
def put_data_file (fs : RemoteFs) (p : List Char) (data : List (List UInt8)) : RemoteFs :=
  copy_all p (sftp_create fs p) data

/-- Modelled from the spec: reading a remote file back through the same
capability. -/
def read_remote (fs : RemoteFs) (p : List Char) : Option (List UInt8) := fs.files p

theorem takeWhile_all_append (p : Char → Bool) :
    ∀ (xs ys : List Char), (∀ x ∈ xs, p x = true) → (xs ++ ys).takeWhile p = xs ++ ys.takeWhile p
  | [], _, _ => rfl
  | x :: xs, ys, h => by
    have hx : p x = true := h x (List.mem_cons_self x xs)
    simp only [List.cons_append, List.takeWhile_cons, hx, if_true]
    rw [takeWhile_all_append p xs ys fun a ha => h a (List.mem_cons_of_mem x ha)]

theorem dropWhile_all_append (p : Char → Bool) :
    ∀ (xs ys : List Char), (∀ x ∈ xs, p x = true) → (xs ++ ys).dropWhile p = ys.dropWhile p
  | [], _, _ => rfl
  | x :: xs, ys, h => by
    have hx : p x = true := h x (List.mem_cons_self x xs)
    simp only [List.cons_append, List.dropWhile_cons, hx, if_true]
    exact dropWhile_all_append p xs ys fun a ha => h a (List.mem_cons_of_mem x ha)

theorem takeWhile_head_false (p : Char → Bool) (c : Char) (cs : List Char) (h : p c = false) :
    (c :: cs).takeWhile p = [] := by
  simp [List.takeWhile_cons, h]

theorem dropWhile_head_false (p : Char → Bool) (c : Char) (cs : List Char) (h : p c = false) :
    (c :: cs).dropWhile p = c :: cs := by
  simp [List.dropWhile_cons, h]

theorem mem_of_mem_dropWhile {p : Char → Bool} : ∀ {l : List Char} {a : Char}, a ∈ l.dropWhile p → a ∈ l
  | [], _, h => h
  | c :: cs, a, h => by
    cases hc : p c with
    | true =>
      rw [List.dropWhile_cons, if_pos hc] at h
      exact List.mem_cons_of_mem c (mem_of_mem_dropWhile h)
    | false => rwa [List.dropWhile_cons, if_neg (by simp [hc])] at h

theorem head_dropWhile_false {p : Char → Bool} : ∀ {l : List Char} {c : Char},
    (l.dropWhile p).head? = some c → p c = false
  | [], _, h => by simp at h
  | d :: ds, c, h => by
    cases hd : p d with
    | true =>
      rw [List.dropWhile_cons, if_pos hd] at h
      exact head_dropWhile_false h
    | false =>
      rw [List.dropWhile_cons, if_neg (by simp [hd])] at h
      simp only [List.head?_cons, Option.some.injEq] at h
      exact h ▸ hd

theorem munchPair_drop {l l2 : List Char} (h : munchPair l = some l2) :
    l2 = (l.dropWhile fun c => !isWs c).dropWhile fun c => isWs c := by
  simp only [munchPair] at h
  split at h
  · exact Option.noConfusion h
  · exact (Option.some.inj h).symm

theorem munchPair_sound {l l2 : List Char} (h : munchPair l = some l2) :
    ∃ f s, f ≠ [] ∧ (∀ c ∈ f, isWs c = false) ∧ s ≠ [] ∧ (∀ c ∈ s, isWs c = true) ∧
      l = f ++ (s ++ l2) := by
  have hdrop := munchPair_drop h
  have hcond : ¬ (((l.takeWhile fun c => !isWs c).isEmpty
      || ((l.dropWhile fun c => !isWs c).takeWhile fun c => isWs c).isEmpty) = true) := by
    intro hc
    simp only [munchPair, hc, if_true] at h
    exact Option.noConfusion h
  simp only [Bool.or_eq_true, not_or] at hcond
  obtain ⟨h1, h2⟩ := hcond
  refine ⟨l.takeWhile fun c => !isWs c, (l.dropWhile fun c => !isWs c).takeWhile fun c => isWs c,
    ?_, ?_, ?_, ?_, ?_⟩
  · intro hn; rw [hn] at h1; simp at h1
  · intro c hc
    have := List.mem_takeWhile_imp hc
    simpa using this
  · intro hn; rw [hn] at h2; simp at h2
  · intro c hc
    exact List.mem_takeWhile_imp hc
  · rw [hdrop, List.takeWhile_append_dropWhile (fun c => isWs c) (l.dropWhile fun c => !isWs c),
      List.takeWhile_append_dropWhile (fun c => !isWs c) l]

theorem munchPair_eq_some_iff (l l2 : List Char) :
    munchPair l = some l2 ↔
      ((l.takeWhile fun c => !isWs c) ≠ [] ∧
        ((l.dropWhile fun c => !isWs c).takeWhile fun c => isWs c) ≠ [] ∧
        l2 = (l.dropWhile fun c => !isWs c).dropWhile fun c => isWs c) := by
  constructor
  · intro h
    have hcond : ¬ (((l.takeWhile fun c => !isWs c).isEmpty
        || ((l.dropWhile fun c => !isWs c).takeWhile fun c => isWs c).isEmpty) = true) := by
      intro hc
      simp only [munchPair, hc, if_true] at h
      exact Option.noConfusion h
    simp only [Bool.or_eq_true, not_or] at hcond
    obtain ⟨h1, h2⟩ := hcond
    refine ⟨?_, ?_, munchPair_drop h⟩
    · intro hn; rw [hn] at h1; simp at h1
    · intro hn; rw [hn] at h2; simp at h2
  · rintro ⟨h1, h2, rfl⟩
    have e1 : (l.takeWhile fun c => !isWs c).isEmpty = false := by
      simp [List.isEmpty_iff, h1]
    have e2 : ((l.dropWhile fun c => !isWs c).takeWhile fun c => isWs c).isEmpty = false := by
      simp [List.isEmpty_iff, h2]
    simp only [munchPair, e1, e2, Bool.or_self, Bool.false_or, if_false]
    rfl

theorem munchPair_step (f s l : List Char) (hf : f ≠ []) (hfw : ∀ c ∈ f, isWs c = false)
    (hs : s ≠ []) (hsw : ∀ c ∈ s, isWs c = true) :
    munchPair (f ++ (s ++ l)) = some (l.dropWhile fun c => isWs c) := by
  have hf_all : ∀ c ∈ f, (!isWs c) = true := fun c hc => by simp [hfw c hc]
  have hdropf : (f ++ (s ++ l)).dropWhile (fun c => !isWs c) = s ++ l := by
    rw [dropWhile_all_append _ _ _ hf_all]
    obtain ⟨s0, s1, rfl⟩ := List.exists_cons_of_ne_nil hs
    have hs0 : isWs s0 = true := hsw s0 (List.mem_cons_self s0 s1)
    rw [List.cons_append, dropWhile_head_false (fun c => !isWs c) s0 (s1 ++ l) (by simp [hs0])]
  refine (munchPair_eq_some_iff _ _).mpr ⟨?_, ?_, ?_⟩
  · rw [takeWhile_all_append _ _ _ hf_all]
    intro hn
    exact hf (List.append_eq_nil.mp hn).1
  · rw [hdropf]
    obtain ⟨s0, s1, rfl⟩ := List.exists_cons_of_ne_nil hs
    have hs0 : isWs s0 = true := hsw s0 (List.mem_cons_self s0 s1)
    rw [List.cons_append]
    simp [List.takeWhile_cons, hs0]
  · rw [hdropf, dropWhile_all_append _ _ _ hsw]

theorem munchPairs_sound : ∀ (n : Nat) {l r : List Char}, munchPairs n l = some r → FieldsThen n l r
  | 0, l, r, h => by
    simp only [munchPairs] at h
    injection h with h
    subst h
    exact FieldsThen.zero l
  | n + 1, l, r, h => by
    simp only [munchPairs] at h
    obtain ⟨l2, h1, h2⟩ := Option.bind_eq_some.mp h
    obtain ⟨f, s, hf, hfw, hs, hsw, hl⟩ := munchPair_sound h1
    subst hl
    exact FieldsThen.succ n f s l2 r hf hfw hs hsw (munchPairs_sound n h2)

theorem fieldsThen_munch {n : Nat} {l rest : List Char} (h : FieldsThen n l rest) :
    ∃ r, munchPairs n l = some r := by
  induction h with
  | zero l => exact ⟨l, rfl⟩
  | succ n f s l rest hf hfw hs hsw inner ih =>
    cases inner with
    | zero =>
      refine ⟨l.dropWhile fun c => isWs c, ?_⟩
      simp only [munchPairs]
      rw [munchPair_step f s l hf hfw hs hsw]
      rfl
    | succ m f2 s2 l3 rest2 hf2 hfw2 hs2 hsw2 inner2 =>
      obtain ⟨r, hr⟩ := ih
      refine ⟨r, ?_⟩
      simp only [munchPairs]
      rw [munchPair_step f s (f2 ++ (s2 ++ l3)) hf hfw hs hsw]
      obtain ⟨f0, f1, rfl⟩ := List.exists_cons_of_ne_nil hf2
      have hf0 : isWs f0 = false := hfw2 f0 (List.mem_cons_self f0 f1)
      rw [List.cons_append, dropWhile_head_false (fun c => isWs c) f0 (f1 ++ (s2 ++ l3)) hf0,
        ← List.cons_append]
      simpa using hr

theorem wsTokensAux_field : ∀ (f : List Char), (∀ x ∈ f, isWs x = false) → ∀ (l cur : List Char),
    wsTokensAux (f ++ l) cur = wsTokensAux l (f.reverse ++ cur)
  | [], _, l, cur => by simp
  | c :: f, hf, l, cur => by
    have hc : isWs c = false := hf c (List.mem_cons_self c f)
    rw [List.cons_append]
    simp only [wsTokensAux, hc, Bool.false_eq_true, if_false]
    rw [wsTokensAux_field f (fun x hx => hf x (List.mem_cons_of_mem c hx)) l (c :: cur)]
    simp [List.append_assoc]

theorem wsTokensAux_ws_empty : ∀ (s : List Char), (∀ x ∈ s, isWs x = true) → ∀ (l : List Char),
    wsTokensAux (s ++ l) [] = wsTokensAux l []
  | [], _, _ => rfl
  | c :: s, hs, l => by
    have hc : isWs c = true := hs c (List.mem_cons_self c s)
    rw [List.cons_append]
    simp only [wsTokensAux, hc, if_true]
    exact wsTokensAux_ws_empty s (fun x hx => hs x (List.mem_cons_of_mem c hx)) l

theorem wsTokensAux_ws_emit (s : List Char) (hs : ∀ x ∈ s, isWs x = true) (hne : s ≠ [])
    (l cur : List Char) (hcur : cur ≠ []) :
    wsTokensAux (s ++ l) cur = cur.reverse :: wsTokensAux l [] := by
  obtain ⟨d, s1, rfl⟩ := List.exists_cons_of_ne_nil hne
  obtain ⟨c0, cur1, rfl⟩ := List.exists_cons_of_ne_nil hcur
  have hd : isWs d = true := hs d (List.mem_cons_self d s1)
  rw [List.cons_append]
  simp only [wsTokensAux, hd, if_true]
  rw [wsTokensAux_ws_empty s1 (fun x hx => hs x (List.mem_cons_of_mem d hx)) l]

theorem wsTokens_length_munch {l l2 : List Char} (h : munchPair l = some l2) :
    (wsTokens l).length = (wsTokens l2).length + 1 := by
  obtain ⟨f, s, hf, hfw, hs, hsw, hl⟩ := munchPair_sound h
  subst hl
  unfold wsTokens
  rw [wsTokensAux_field f hfw (s ++ l2) [], List.append_nil,
    wsTokensAux_ws_emit s hsw hs l2 f.reverse (by simp [hf])]
  simp

theorem munchPairs_le_tokens : ∀ (n : Nat) {l r : List Char},
    munchPairs n l = some r → n ≤ (wsTokens l).length
  | 0, _, _, _ => Nat.zero_le _
  | n + 1, l, r, h => by
    simp only [munchPairs] at h
    obtain ⟨l2, h1, h2⟩ := Option.bind_eq_some.mp h
    have hrec := munchPairs_le_tokens n h2
    have hlen := wsTokens_length_munch h1
    omega

theorem munchPair_mem {l l2 : List Char} (h : munchPair l = some l2) {c : Char}
    (hc : c ∈ l2) : c ∈ l := by
  obtain ⟨f, s, _, _, _, _, rfl⟩ := munchPair_sound h
  simp [hc]

theorem munchPairs_mem : ∀ (n : Nat) {l r : List Char},
    munchPairs n l = some r → ∀ {c : Char}, c ∈ r → c ∈ l
  | 0, l, r, h, c, hc => by
    simp only [munchPairs] at h
    injection h with h
    exact h ▸ hc
  | n + 1, l, r, h, c, hc => by
    simp only [munchPairs] at h
    obtain ⟨l2, h1, h2⟩ := Option.bind_eq_some.mp h
    exact munchPair_mem h1 (munchPairs_mem n h2 hc)

theorem munchPair_head {l l2 : List Char} (h : munchPair l = some l2) {c : Char}
    (hc : l2.head? = some c) : isWs c = false := by
  have hd := munchPair_drop h
  exact head_dropWhile_false (hd ▸ hc)

theorem munchPairs_head : ∀ (n : Nat) {l r : List Char},
    munchPairs (n + 1) l = some r → ∀ {c : Char}, r.head? = some c → isWs c = false
  | 0, l, r, h, c, hc => by
    simp only [munchPairs] at h
    obtain ⟨l2, h1, h2⟩ := Option.bind_eq_some.mp h
    injection h2 with h2
    exact munchPair_head h1 (h2 ▸ hc)
  | n + 1, l, r, h, c, hc => by
    rw [munchPairs] at h
    obtain ⟨l2, h1, h2⟩ := Option.bind_eq_some.mp h
    exact munchPairs_head n h2 hc

theorem parse_row_eq {l r : List Char} (h : parse_row l = some r) :
    munchPairs 10 l = some r ∧ r.contains '\n' = false := by
  unfold parse_row at h
  cases hm : munchPairs 10 l with
  | none => rw [hm] at h; exact Option.noConfusion h
  | some rest =>
    rw [hm] at h
    simp only [Option.some_bind] at h
    cases hc : rest.contains '\n' with
    | true => rw [hc] at h; simp at h
    | false =>
      rw [hc] at h
      simp only [Bool.false_eq_true, if_false, Option.some.injEq] at h
      subst h
      exact ⟨rfl, hc⟩

theorem parse_row_some_of_fields {l rest : List Char} (hnl : '\n' ∉ l)
    (h : FieldsThen 10 l rest) : ∃ r, parse_row l = some r := by
  obtain ⟨r, hr⟩ := fieldsThen_munch h
  have hcont : r.contains '\n' = false := by
    cases hc : r.contains '\n' with
    | false => rfl
    | true =>
      exact absurd (munchPairs_mem 10 hr (List.mem_of_elem_eq_true hc)) hnl
  refine ⟨r, ?_⟩
  unfold parse_row
  rw [hr, Option.some_bind, hcont]
  rfl

theorem wait_returns_ok : ∀ (fuel : Nat) (a : Nat → AttemptResult) (i : Nat)
    (r : Except String Unit), wait_for_ssh_connectable a i fuel = some r → r = Except.ok ()
  | 0, _, _, _, h => Option.noConfusion h
  | fuel + 1, a, i, r, h => by
    rw [wait_for_ssh_connectable] at h
    cases ha : a i with
    | connOk =>
      rw [ha] at h
      exact (Option.some.inj h).symm
    | timeoutErr =>
      rw [ha] at h
      exact wait_returns_ok fuel a (i + 1) r h
    | connError =>
      rw [ha] at h
      exact wait_returns_ok fuel a (i + 1) r h

theorem wait_none_of_never_ok : ∀ (fuel : Nat) (a : Nat → AttemptResult) (i : Nat),
    (∀ k, a k ≠ AttemptResult.connOk) → wait_for_ssh_connectable a i fuel = none
  | 0, _, _, _ => rfl
  | fuel + 1, a, i, h => by
    rw [wait_for_ssh_connectable]
    cases ha : a i with
    | connOk => exact absurd ha (h i)
    | timeoutErr => exact wait_none_of_never_ok fuel a (i + 1) h
    | connError => exact wait_none_of_never_ok fuel a (i + 1) h

theorem copy_all_read (p : List Char) :
    ∀ (data : List (List UInt8)) (fs : RemoteFs) (v : List UInt8), fs.files p = some v →
      (copy_all p fs data).files p = some (v ++ data.flatten)
  | [], fs, v, h => by simpa [copy_all] using h
  | chunk :: rest, fs, v, h => by
    rw [copy_all]
    have hw : (write_chunk fs p chunk).files p = some (v ++ chunk) := by
      simp [write_chunk, h]
    rw [copy_all_read p rest (write_chunk fs p chunk) (v ++ chunk) hw]
    simp

theorem attemptStart_ge (dur : Nat → Nat) (n : Nat) : 10 * n ≤ attemptStart dur (n + 1) := by
  rw [attemptStart]
  omega

theorem attemptStart_exact (dur : Nat → Nat) (hdur : ∀ n, dur n ≤ 5) :
    ∀ m, attemptStart dur (m + 2) = 10 * (m + 1)
  | 0 => by
    have h0 := hdur 0
    have h1 := hdur 1
    simp only [attemptStart]
    omega
  | m + 1 => by
    have hm := attemptStart_exact dur hdur m
    have hd := hdur (m + 2)
    rw [attemptStart, hm]
    omega

theorem probeTrace_counts (dur : Nat → Nat) :
    ∀ n, (probeTrace dur n).countP isAttempt = n ∧ (probeTrace dur n).count PEvent.diag = n
  | 0 => by simp [probeTrace]
  | n + 1 => by
    obtain ⟨h1, h2⟩ := probeTrace_counts dur n
    rw [probeTrace]
    constructor
    · rw [List.countP_append, h1]
      rfl
    · rw [List.count_append, h2]
      rfl

theorem whitelisted_beq_false {c : Char} (h : whitelisted c = true) (d : Char)
    (hd : whitelisted d = false) : (c == d) = false := by
  cases hcd : c == d with
  | false => rfl
  | true =>
    have hc : c = d := eq_of_beq hcd
    rw [hc, hd] at h
    exact Bool.noConfusion h

theorem whitelisted_not_ws {c : Char} (h : whitelisted c = true) : isWs c = false := by
  simp only [isWs]
  rw [whitelisted_beq_false h ' ' (by decide), whitelisted_beq_false h '\t' (by decide),
    whitelisted_beq_false h '\n' (by decide), whitelisted_beq_false h '\r' (by decide),
    whitelisted_beq_false h '\x0b' (by decide), whitelisted_beq_false h '\x0c' (by decide)]
  rfl

theorem whitelisted_ne_squote {c : Char} (h : whitelisted c = true) : (c == squote) = false :=
  whitelisted_beq_false h squote (by decide)

theorem whitelisted_ne_bslash {c : Char} (h : whitelisted c = true) : (c == bslash) = false :=
  whitelisted_beq_false h bslash (by decide)

theorem ssRun_plain : ∀ (xs : List Char), (∀ x ∈ xs, whitelisted x = true) →
    ∀ (cur : List Char) (acc : List (List Char)),
      ssRun xs (SMode.norm true) cur acc = ssRun [] (SMode.norm true) (xs.reverse ++ cur) acc
  | [], _, cur, acc => by simp
  | x :: xs, h, cur, acc => by
    have hx := h x (List.mem_cons_self x xs)
    simp only [ssRun, whitelisted_not_ws hx, whitelisted_ne_squote hx, whitelisted_ne_bslash hx,
      Bool.false_eq_true, if_false]
    rw [ssRun_plain xs (fun a ha => h a (List.mem_cons_of_mem x ha)) (x :: cur) acc]
    have he : (x :: xs).reverse ++ cur = xs.reverse ++ (x :: cur) := by simp
    rw [he, ssRun]

theorem ssRun_quoted_body : ∀ (arg : List Char) (cur : List Char) (acc : List (List Char)),
    ssRun ((arg.map encChar).flatten ++ [squote]) SMode.quoted cur acc
      = ssRun [] (SMode.norm true) (arg.reverse ++ cur) acc
  | [], cur, acc => by simp [ssRun]
  | c :: arg, cur, acc => by
    by_cases hc : (c == squote || c == '!') = true
    · simp only [List.map_cons, List.flatten_cons, encChar, hc, if_true, List.cons_append,
        List.nil_append, List.append_assoc]
      simp only [ssRun, beq_self_eq_true, if_true, show isWs bslash = false by decide,
        show (bslash == squote) = false by decide, show (bslash == bslash) = true by decide,
        show isWs squote = false by decide, Bool.false_eq_true, if_false]
      rw [ssRun_quoted_body arg (c :: cur) acc]
      have he : (c :: arg).reverse ++ cur = arg.reverse ++ (c :: cur) := by simp
      rw [he, ssRun]
    · have hcb : (c == squote || c == '!') = false := by
        cases hx : (c == squote || c == '!') with
        | false => rfl
        | true => exact absurd hx hc
      have hcq : (c == squote) = false := by
        cases hq : c == squote with
        | false => rfl
        | true => rw [hq] at hcb; simp at hcb
      simp only [List.map_cons, List.flatten_cons, encChar, hcb, Bool.false_eq_true, if_false,
        List.cons_append, List.nil_append, List.append_assoc]
      simp only [ssRun, hcq, Bool.false_eq_true, if_false]
      rw [ssRun_quoted_body arg (c :: cur) acc]
      have he : (c :: arg).reverse ++ cur = arg.reverse ++ (c :: cur) := by simp
      rw [he, ssRun]

theorem shellSplit_escape (arg : List Char) : shellSplit (escapeUnix arg) = some [arg] := by
  unfold shellSplit escapeUnix
  by_cases hw : (!arg.isEmpty && arg.all whitelisted) = true
  · rw [if_pos hw]
    have hne : arg ≠ [] := by
      intro hn
      rw [hn] at hw
      simp at hw
    have h2 : arg.all whitelisted = true := by
      cases hq : arg.all whitelisted with
      | true => rfl
      | false => rw [hq] at hw; simp at hw
    obtain ⟨a, as, rfl⟩ := List.exists_cons_of_ne_nil hne
    have hall : ∀ x ∈ a :: as, whitelisted x = true := by
      intro x hx
      exact List.all_eq_true.mp h2 x hx
    have ha : whitelisted a = true := hall a (List.mem_cons_self a as)
    simp only [ssRun, whitelisted_not_ws ha, whitelisted_ne_squote ha, whitelisted_ne_bslash ha,
      Bool.false_eq_true, if_false]
    rw [ssRun_plain as (fun x hx => hall x (List.mem_cons_of_mem a hx)) [a] [], ssRun]
    simp
  · rw [if_neg hw]
    simp only [ssRun, show isWs squote = false by decide, beq_self_eq_true, if_true,
      Bool.false_eq_true, if_false]
    rw [ssRun_quoted_body arg [] [], ssRun]
    simp

/-- C1: header validation in command_list.  A first line that splits into
exactly 11 whitespace-separated tokens whose last (11th) token is COMMAND
validates successfully, returning the token list unchanged; a different token
count, or a different last token, makes the process abort fatally; and with
no first line at all, command_list returns the recoverable no-output error
instead of aborting. -/
theorem C1_header_validation :
    (∀ l : List Char, (wsTokens l).length = 11 → (wsTokens l).getLast? = some ("COMMAND".data) →
      parse_header (some l) = HeaderResult.ok (wsTokens l))
    ∧ (∀ l : List Char, (wsTokens l).length ≠ 11 ∨ (wsTokens l).getLast? ≠ some ("COMMAND".data) →
      parse_header (some l) = HeaderResult.panicked)
    ∧ parse_header none = HeaderResult.noOutput
    ∧ command_list [] = CmdOutcome.errNoOutput := by
  refine ⟨?_, ?_, rfl, rfl⟩
  · intro l h1 h2
    simp [parse_header, h1, h2]
  · intro l h
    rcases h with h | h
    · simp [parse_header, h]
    · by_cases hl : (wsTokens l).length = 11
      · cases hg : (wsTokens l).getLast? with
        | none => simp [parse_header, hl, hg]
        | some t =>
          rw [hg] at h
          have ht : ¬ (t = "COMMAND".data) := by
            intro hteq
            exact h (by rw [hteq])
          simp [parse_header, hl, hg, ht]
      · simp [parse_header, hl]

/-- Witness for C1 at the actual ps auwx header line (11 tokens, last one
COMMAND). -/
theorem C1_header_validation_witness :
    parse_header (some ("USER PID %CPU %MEM VSZ RSS TTY STAT START TIME COMMAND".data)) =
      HeaderResult.ok (wsTokens ("USER PID %CPU %MEM VSZ RSS TTY STAT START TIME COMMAND".data)) :=
  C1_header_validation.1 _ (by decide) (by decide)

/-- C2: the row pattern matches exactly when the line (which, coming from a
line stream, contains no newline) consists of 10 whitespace-delimited
non-space runs each followed by whitespace and then a remainder; on a match
the captured command text is such a remainder; and on the example ps row the
extracted command text is /bin/bash -c foo. -/
theorem C2_row_pattern :
    (∀ l : List Char, '\n' ∉ l → ((parse_row l).isSome ↔ ∃ rest, FieldsThen 10 l rest))
    ∧ (∀ l rest : List Char, parse_row l = some rest → FieldsThen 10 l rest)
    ∧ parse_row ("user 123 0.0 0.1 1000 200 pts/0 S 00:00 0:00 /bin/bash -c foo".data)
        = some ("/bin/bash -c foo".data) := by
  have sound : ∀ l rest : List Char, parse_row l = some rest → FieldsThen 10 l rest := by
    intro l rest h
    exact munchPairs_sound 10 (parse_row_eq h).1
  refine ⟨?_, sound, by decide⟩
  intro l hnl
  constructor
  · intro hs
    obtain ⟨r, hr⟩ := Option.isSome_iff_exists.mp hs
    exact ⟨r, sound l r hr⟩
  · rintro ⟨rest, hft⟩
    obtain ⟨r, hr⟩ := parse_row_some_of_fields hnl hft
    exact Option.isSome_iff_exists.mpr ⟨r, hr⟩

/-- Witness for C2 at a newline-free line of 10 fields and a remainder. -/
theorem C2_row_pattern_witness :
    (parse_row ("a b c d e f g h i j k".data)).isSome ↔
      ∃ rest, FieldsThen 10 ("a b c d e f g h i j k".data) rest :=
  C2_row_pattern.1 _ (by decide)

/-- C3: the connectivity prober never returns a failure to its caller: any
value it returns is Ok, and when no attempt ever connects it never returns
within any number of iterations. -/
theorem C3_prober_never_fails :
    (∀ (a : Nat → AttemptResult) (i fuel : Nat) (r : Except String Unit),
      wait_for_ssh_connectable a i fuel = some r → r = Except.ok ())
    ∧ (∀ (a : Nat → AttemptResult) (i fuel : Nat),
      (∀ k, a k ≠ AttemptResult.connOk) → wait_for_ssh_connectable a i fuel = none) :=
  ⟨fun a i fuel r h => wait_returns_ok fuel a i r h,
    fun a i fuel h => wait_none_of_never_ok fuel a i h⟩

/-- Witness for C3: with every attempt timing out the loop is still running
after 5 iterations. -/
theorem C3_prober_never_fails_witness :
    wait_for_ssh_connectable (fun _ => AttemptResult.timeoutErr) 0 5 = none :=
  C3_prober_never_fails.2 (fun _ => AttemptResult.timeoutErr) 0 5
    (fun _ h => AttemptResult.noConfusion h)

/-- C4: fail-fast sequential orchestration of main: the attempted steps are
always an order-respecting prefix of probe, connect, command, upload; the
first error becomes the result of the run; the upload step is never attempted
when session connect or command_list fails; and main succeeds exactly when
all four steps succeed. -/
theorem C4_fail_fast_orchestration (env : MainEnv) :
    ((mainRun env).1 = [Step.probe] ∨ (mainRun env).1 = [Step.probe, Step.connect] ∨
      (mainRun env).1 = [Step.probe, Step.connect, Step.commandList] ∨ (mainRun env).1 = allSteps)
    ∧ (isErr env.probeRes = true → (mainRun env).2 = env.probeRes
        ∧ Step.connect ∉ (mainRun env).1 ∧ Step.commandList ∉ (mainRun env).1
        ∧ Step.upload ∉ (mainRun env).1)
    ∧ (isErr env.probeRes = false → isErr env.connectRes = true →
        (mainRun env).2 = env.connectRes)
    ∧ (isErr env.probeRes = false → isErr env.connectRes = false → isErr env.commandRes = true →
        (mainRun env).2 = env.commandRes)
    ∧ (isErr env.connectRes = true ∨ isErr env.commandRes = true →
        Step.upload ∉ (mainRun env).1)
    ∧ ((mainRun env).2 = Except.ok () ↔
        env.probeRes = Except.ok () ∧ env.connectRes = Except.ok ()
        ∧ env.commandRes = Except.ok () ∧ env.uploadRes = Except.ok ()) := by
  obtain ⟨p, c, m, u⟩ := env
  cases p <;> cases c <;> cases m <;> cases u <;>
    simp [mainRun, allSteps, isErr]

/-- Witness for C4: with a session-connect error the upload step is never
attempted. -/
theorem C4_fail_fast_orchestration_witness :
    Step.upload ∉ (mainRun (MainEnv.mk (Except.ok ()) (Except.error "connect failed")
      (Except.ok ()) (Except.ok ()))).1 :=
  (C4_fail_fast_orchestration _).2.2.2.2.1 (Or.inl rfl)

/-- C5 counterexample: the claimed reaping invariant is false, because
put_data_file never waits on the SFTP subsystem process it spawns before
returning on its success path (command_list does wait on its process). -/
theorem C5_reaping_counterexample :
    ¬ (reaped command_list_handle_events = true ∧ reaped put_data_file_handle_events = true) := by
  decide

/-- C5 (amended): on its successful path command_list waits on its spawned
remote process handle before discarding it, but put_data_file discards its
spawned SFTP subsystem process handle without waiting on it. -/
theorem C5_reaping :
    reaped command_list_handle_events = true ∧ reaped put_data_file_handle_events = false := by
  decide

/-- C6: a data row with fewer than 10 whitespace-separated fields never
matches the row pattern, and any non-matching row aborts the whole row loop
(no skipping: the remaining lines, matching or not, are never reached). -/
theorem C6_nonmatching_rows_fatal :
    (∀ l : List Char, (wsTokens l).length < 10 → parse_row l = none)
    ∧ (∀ (line : List Char) (rest : List (List Char)), parse_row line = none →
        processRows (line :: rest) = RowsOutcome.panicked) := by
  constructor
  · intro l hlen
    cases hm : munchPairs 10 l with
    | none =>
      unfold parse_row
      rw [hm]
      rfl
    | some r =>
      have := munchPairs_le_tokens 10 hm
      omega
  · intro line rest h
    simp [processRows, h]

/-- Witness for C6: a two-field row aborts the loop even though a matching
row follows it. -/
theorem C6_nonmatching_rows_fatal_witness :
    processRows ["short line".data, "x 1 2 3 4 5 6 7 8 9 10 ok".data] = RowsOutcome.panicked :=
  C6_nonmatching_rows_fatal.2 _ _ (by decide)

/-- C7: every argument round-trips through shell escaping followed by shell
word splitting, and the fixed argv of command_list escapes and joins to the
command string ps auwx. -/
theorem C7_shell_escaping :
    (∀ arg : List Char, shellSplit (escapeUnix arg) = some [arg])
    ∧ buildCommand ["ps".data, "auwx".data] = "ps auwx".data :=
  ⟨shellSplit_escape, by decide⟩

/-- C8: put_data_file streams all bytes of the data source into the remote
file with no transformation, so reading the file back yields exactly the
source bytes; in particular uploading the 3 bytes of hey to test.txt and
reading it back yields exactly those 3 bytes. -/
theorem C8_upload_round_trip :
    (∀ (fs : RemoteFs) (p : List Char) (data : List (List UInt8)),
      read_remote (put_data_file fs p data) p = some data.flatten)
    ∧ read_remote (put_data_file (RemoteFs.mk fun _ => none) ("test.txt".data)
        [[104, 101, 121]]) ("test.txt".data) = some [104, 101, 121]
    ∧ ([104, 101, 121] : List UInt8).length = 3 := by
  have gen : ∀ (fs : RemoteFs) (p : List Char) (data : List (List UInt8)),
      read_remote (put_data_file fs p data) p = some data.flatten := by
    intro fs p data
    unfold read_remote put_data_file
    have h0 : (sftp_create fs p).files p = some [] := by simp [sftp_create]
    have h1 := copy_all_read p data (sftp_create fs p) [] h0
    simpa using h1
  refine ⟨gen, ?_, rfl⟩
  have h2 := gen (RemoteFs.mk fun _ => none) ("test.txt".data) [[104, 101, 121]]
  simpa using h2

/-- C9 counterexample: with every attempt failing instantly, the first and
second failed attempts both start at time 0 (the first tick of the 10-second
interval completes immediately), so successive failed attempts are not
separated by at least 10 seconds. -/
theorem C9_retry_cadence_counterexample :
    attemptStart (fun _ => 0) 0 = 0 ∧ attemptStart (fun _ => 0) 1 = 0 := by
  constructor <;> decide

/-- C9 (amended): while every attempt fails the prober never returns and
emits exactly one diagnostic per failed attempt, and the first attempt is
immediate; but because the first interval tick completes immediately the
second attempt starts as soon as the first attempt ends (its duration, at
most the 5-second timeout, possibly 0), and only from the third attempt on do
attempts sit on the 10-second grid at 10*(n-1) seconds. -/
theorem C9_retry_cadence (dur : Nat → Nat) (hdur : ∀ n, dur n ≤ 5) :
    attemptStart dur 0 = 0
    ∧ attemptStart dur 1 = dur 0
    ∧ (∀ n, 2 ≤ n → attemptStart dur n = 10 * (n - 1))
    ∧ (∀ n, (probeTrace dur n).countP isAttempt = n ∧ (probeTrace dur n).count PEvent.diag = n)
    ∧ (∀ (a : Nat → AttemptResult) (i fuel : Nat),
        (∀ k, a k ≠ AttemptResult.connOk) → wait_for_ssh_connectable a i fuel = none) := by
  refine ⟨rfl, ?_, ?_, probeTrace_counts dur, fun a i fuel h => wait_none_of_never_ok fuel a i h⟩
  · simp only [attemptStart]
    omega
  · intro n h2
    obtain ⟨m, rfl⟩ : ∃ m, n = m + 2 := ⟨n - 2, by omega⟩
    rw [attemptStart_exact dur hdur m]
    omega

/-- Witness for C9 (amended): with all attempts lasting the full 5-second
timeout, the fourth attempt starts exactly at 20 seconds. -/
theorem C9_retry_cadence_witness :
    attemptStart (fun _ => 5) 3 = 20 := by
  have h := (C9_retry_cadence (fun _ => 5) (fun _ => Nat.le_refl 5)).2.2.1 3 (by omega)
  simpa using h

/-- C10: whenever the row regex matches, the returned capture (group 1, which
always exists on a match) never begins with a whitespace character, and it
may be empty, as on a line of exactly 10 fields followed by trailing
whitespace. -/
theorem C10_capture_properties :
    (∀ (l r : List Char) (c : Char), parse_row l = some r → r.head? = some c → isWs c = false)
    ∧ parse_row ("a b c d e f g h i j ".data) = some [] := by
  refine ⟨?_, by decide⟩
  intro l r c h hc
  have hm : munchPairs 10 l = some r := (parse_row_eq h).1
  exact munchPairs_head 9 hm hc

/-- Witness for C10 at a concrete matching row whose capture starts with the
letter b. -/
theorem C10_capture_properties_witness : isWs 'b' = false :=
  C10_capture_properties.1 ("q w e r t y u i o p bash -x".data) ("bash -x".data) 'b'
    (by decide) rfl
